import Mathlib

set_option autoImplicit false

/-!
Verification development for the `exact-key-map` library: a shallow embedding
of its runtime container (`ExactKeyMap`, `ConstExactKeyMap`, the argument
normalization helpers and shape predicates) and of the compile-time
type-derivation engine (`KeysOfEntries`, `ExtractExactEntry`, `ValueOfKey`,
`NormalizeValue`, `Widen`) as evaluated by the TypeScript checker, together
with theorems settling the specification's claims.
-/

namespace ExactKeyMapSpec

/-- Runtime JavaScript values, as far as the library inspects them.
`ekm` is an `ExactKeyMap` (or `ConstExactKeyMap`) instance carrying the
ordered entry list of its underlying `Map`; `pmap` is a plain `Map`
(the result of `asMap`), which exposes no `asMap` method. -/
inductive JVal where
  | undef
  | str (s : String)
  | num (n : Int)
  | bool (b : Bool)
  | arr (elems : List JVal)
  | ekm (store : List (JVal × JVal))
  | pmap (store : List (JVal × JVal))

mutual

/-- Structural equality test on runtime values (JavaScript `SameValueZero`
distinguishes object references, but the library never uses non-primitive
map keys, so structural equality is faithful wherever keys are compared). -/
def decEqJVal : (a b : JVal) → Decidable (a = b)
  | .undef, .undef => .isTrue rfl
  | .str a, .str b =>
    if h : a = b then .isTrue (by rw [h]) else .isFalse (by simp [h])
  | .num a, .num b =>
    if h : a = b then .isTrue (by rw [h]) else .isFalse (by simp [h])
  | .bool a, .bool b =>
    if h : a = b then .isTrue (by rw [h]) else .isFalse (by simp [h])
  | .arr a, .arr b =>
    match decEqJList a b with
    | .isTrue h => .isTrue (by rw [h])
    | .isFalse h => .isFalse (by simp [h])
  | .ekm a, .ekm b =>
    match decEqJStore a b with
    | .isTrue h => .isTrue (by rw [h])
    | .isFalse h => .isFalse (by simp [h])
  | .pmap a, .pmap b =>
    match decEqJStore a b with
    | .isTrue h => .isTrue (by rw [h])
    | .isFalse h => .isFalse (by simp [h])
  | .undef, .str _ | .undef, .num _ | .undef, .bool _ | .undef, .arr _ | .undef, .ekm _ | .undef, .pmap _
  | .str _, .undef | .str _, .num _ | .str _, .bool _ | .str _, .arr _ | .str _, .ekm _ | .str _, .pmap _
  | .num _, .undef | .num _, .str _ | .num _, .bool _ | .num _, .arr _ | .num _, .ekm _ | .num _, .pmap _
  | .bool _, .undef | .bool _, .str _ | .bool _, .num _ | .bool _, .arr _ | .bool _, .ekm _ | .bool _, .pmap _
  | .arr _, .undef | .arr _, .str _ | .arr _, .num _ | .arr _, .bool _ | .arr _, .ekm _ | .arr _, .pmap _
  | .ekm _, .undef | .ekm _, .str _ | .ekm _, .num _ | .ekm _, .bool _ | .ekm _, .arr _ | .ekm _, .pmap _
  | .pmap _, .undef | .pmap _, .str _ | .pmap _, .num _ | .pmap _, .bool _ | .pmap _, .arr _ | .pmap _, .ekm _
    => .isFalse (fun h => nomatch h)

/-- Equality test for runtime array element lists. -/
def decEqJList : (a b : List JVal) → Decidable (a = b)
  | [], [] => .isTrue rfl
  | [], _ :: _ => .isFalse (fun h => nomatch h)
  | _ :: _, [] => .isFalse (fun h => nomatch h)
  | x :: xs, y :: ys =>
    match decEqJVal x y, decEqJList xs ys with
    | .isTrue h1, .isTrue h2 => .isTrue (by rw [h1, h2])
    | .isFalse h1, _ => .isFalse (by simp [h1])
    | _, .isFalse h2 => .isFalse (by simp [h2])

/-- Equality test for map entry lists. -/
def decEqJStore : (a b : List (JVal × JVal)) → Decidable (a = b)
  | [], [] => .isTrue rfl
  | [], _ :: _ => .isFalse (fun h => nomatch h)
  | _ :: _, [] => .isFalse (fun h => nomatch h)
  | (k, v) :: xs, (k', v') :: ys =>
    match decEqJVal k k', decEqJVal v v', decEqJStore xs ys with
    | .isTrue h1, .isTrue h2, .isTrue h3 => .isTrue (by rw [h1, h2, h3])
    | .isFalse h1, _, _ => .isFalse (by simp [h1])
    | _, .isFalse h2, _ => .isFalse (by simp [h2])
    | _, _, .isFalse h3 => .isFalse (by simp [h3])

end

instance : DecidableEq JVal := decEqJVal

namespace JVal

/-- `isTuple` from `src/utils/isTuple.ts`:
`Array.isArray(value) && value.length === 2`. -/
def isTuple : JVal → Bool
  | .arr l => l.length == 2
  | _ => false

/-- `isArrayOfTuples` from `src/utils/isArrayOfTuples.ts`:
`Array.isArray(value) && value.every(isTuple)`. -/
def isArrayOfTuples : JVal → Bool
  | .arr l => l.all isTuple
  | _ => false

end JVal

/-- The ordered entry list of a JavaScript `Map`. -/
abbrev JStore := List (JVal × JVal)

/-- `Map.prototype.has`. -/
def mapHas : JStore → JVal → Bool
  | [], _ => false
  | p :: rest, k => if p.1 = k then true else mapHas rest k

/-- `Map.prototype.get` (`undefined` on a miss is modelled as `none`). -/
def mapGet : JStore → JVal → Option JVal
  | [], _ => none
  | p :: rest, k => if p.1 = k then some p.2 else mapGet rest k

/-- `Map.prototype.set`: an existing key keeps its position and gets the new
value; a fresh key is appended at the end (JavaScript insertion order). -/
def mapSet (s : JStore) (k v : JVal) : JStore :=
  if mapHas s k then s.map (fun p => if p.1 = k then (k, v) else p)
  else s ++ [(k, v)]

/-- Removing the entry of a key (keys are unique in a `Map` store, so at
most one entry goes away). -/
def mapRemove : JStore → JVal → JStore
  | [], _ => []
  | p :: rest, k => if p.1 = k then mapRemove rest k else p :: mapRemove rest k

/-- `Map.prototype.delete`: returns whether the key was present together with
the store afterwards. -/
def mapDelete (s : JStore) (k : JVal) : Bool × JStore :=
  if mapHas s k then (true, mapRemove s k) else (false, s)

/-- `Map.prototype.size`. -/
def mapSize (s : JStore) : Nat := s.length

/-- Inserting a list of pairs in order (what the `Map` constructor does with
its iterable argument, via repeated `set`). -/
def mapSetAll (s : JStore) (ps : JStore) : JStore :=
  ps.foldl (fun acc p => mapSet acc p.1 p.2) s

/-- `isEntriesArray` from `src/utils/isEntriesArray.ts`:
`Array.isArray(first) && (first.length === 0 || Array.isArray(first[0]))`. -/
def isEntriesArray : JVal → Bool
  | .arr [] => true
  | .arr (.arr _ :: _) => true
  | _ => false

/-- Elements of a runtime array (empty for non-arrays). -/
def jElems : JVal → List JVal
  | .arr l => l
  | _ => []

/-- `toEntriesArray` from `src/utils/toEntriesArray.ts`:
`isEntriesArray(first) ? first : [first, ...rest]`. -/
def toEntriesArray (first : JVal) (rest : List JVal) : List JVal :=
  if isEntriesArray first then jElems first else first :: rest

mutual

/-- The value transformation inside the `ExactKeyMap` constructor
(`src/exact-key-map/ExactKeyMap.ts`): a value recognised by
`isArrayOfTuples` is replaced by `new ExactKeyMap(value)` (whose inner
`toEntriesArray` returns the element list itself, since an array of tuples
is an entries array), any other value is kept unchanged. -/
def processVal : JVal → JVal
  | .arr l =>
    if l.all JVal.isTuple then .ekm (mapSetAll [] (processEntries l)) else .arr l
  | v => v

/-- `arr.map(([key, value]) => [key, processed value])`: JavaScript
destructuring reads indices 0 and 1 of each element, yielding `undefined`
for missing positions and ignoring extra ones. -/
def processEntries : List JVal → List (JVal × JVal)
  | [] => []
  | .arr (k :: v :: _) :: rest => (k, processVal v) :: processEntries rest
  | .arr [k] :: rest => (k, .undef) :: processEntries rest
  | _ :: rest => (.undef, .undef) :: processEntries rest

end

/-- The store built by `new ExactKeyMap(first, ...rest)`: normalize the
argument shape with `toEntriesArray`, transform each entry's value, then
hand the processed pairs to the `Map` constructor (repeated `set`). -/
def ekmConstruct (first : JVal) (rest : List JVal) : JStore :=
  mapSetAll [] (processEntries (toEntriesArray first rest))

/-- `ExactKeyMap.prototype.get` is `super.get` (a plain `Map` lookup). -/
def ekmGet (s : JStore) (k : JVal) : Option JVal := mapGet s k

/-- `ExactKeyMap.prototype.set` is `super.set`. -/
def ekmSet (s : JStore) (k v : JVal) : JStore := mapSet s k v

/-- `ExactKeyMap.prototype.delete` is `super.delete`. -/
def ekmDelete (s : JStore) (k : JVal) : Bool × JStore := mapDelete s k

mutual

/-- The per-value step of `asMap`: a stored value exposing an `asMap`
method (an `ExactKeyMap`/`ConstExactKeyMap` instance) is replaced by its
own export; every other value is kept unchanged. -/
def exportVal : JVal → JVal
  | .ekm s => .pmap (asMapGo [] s)
  | v => v

/-- The `forEach` loop of `asMap` (`ExactKeyMap.asMap`): starting from a
fresh plain `Map`, insert each entry in iteration order, exporting nested
typed maps. -/
def asMapGo : JStore → JStore → JStore
  | acc, [] => acc
  | acc, (k, v) :: rest => asMapGo (mapSet acc k (exportVal v)) rest

end

/-- `ExactKeyMap.prototype.asMap`. -/
def ekmAsMap (s : JStore) : JStore := asMapGo [] s

/-- A `ConstExactKeyMap` instance: the transient `_constructing` flag and
the underlying `Map` store. -/
structure ConstEKM where
  constructing : Bool
  store : JStore
  deriving DecidableEq

/-- `ConstExactKeyMap.prototype.set` (`src/exact-key-map` read-only
variant): allowed while `_constructing` is set, otherwise throws. The
throw happens before any mutation, so an `error` result leaves the store
untouched. -/
def cekmSet (m : ConstEKM) (k v : JVal) : Except String ConstEKM :=
  if m.constructing then .ok ⟨m.constructing, mapSet m.store k v⟩
  else .error "ConstExactKeyMap is read-only, set operation is not allowed"

/-- `ConstExactKeyMap.prototype.delete`: allowed while `_constructing` is
set, otherwise throws. -/
def cekmDelete (m : ConstEKM) (k : JVal) : Except String (Bool × ConstEKM) :=
  if m.constructing then
    let r := mapDelete m.store k
    .ok (r.1, ⟨m.constructing, r.2⟩)
  else .error "ConstExactKeyMap is read-only, delete operation is not allowed"

/-- The `ConstExactKeyMap` constructor: `super([])` builds an empty base
map (no adder call can fire on an empty iterable), `_constructing` is set,
the processed entries are inserted through `super.set` — the plain `Map`
insert, which never throws — and the flag is cleared. Nested values
recognised by `isArrayOfTuples` become nested `ConstExactKeyMap` instances
by the same processing, so construction performs no throwing operation at
any depth; in this model a `ConstExactKeyMap` instance and an
`ExactKeyMap` instance with the same entries are both `JVal.ekm` of the
same store. -/
def cekmConstruct (first : JVal) (rest : List JVal) : ConstEKM :=
  ⟨false, mapSetAll [] (processEntries (toEntriesArray first rest))⟩

/-- Entry lists `[(k1, v1), ...]` rendered as the runtime array-of-tuples
argument `[[k1, v1], ...]`. -/
def rawEntries (es : JStore) : JVal :=
  .arr (es.map (fun p => .arr [p.1, p.2]))

/-!
## The compile-time fragment

A model of the TypeScript types the type-derivation engine manipulates.
Tuple types are encoded as cons spines (`tnil`/`tcons`), so
`readonly [A, B]` is `tcons A (tcons B tnil)`. `other` stands for an
opaque named object type (`Date`, a function type, a plain structured
object), `u8p` for `Uint8Array<ArrayBufferLike>` and `u8` for the
unparameterized `Uint8Array`, `ekmT E` for `ExactKeyMap<E>`.
-/

inductive Ty where
  | never
  | unknown
  | strLit (s : String)
  | str
  | numLit (n : Int)
  | num
  | boolLit (b : Bool)
  | bool
  | bigint
  | symbol
  | u8p
  | u8
  | other (name : String)
  | tnil
  | tcons (hd tl : Ty)
  | arrOf (elem : Ty)
  | union (a b : Ty)
  | ekmT (entries : Ty)
  deriving DecidableEq, Repr

namespace Ty

mutual

/-- The assignability (`extends`) relation of the modelled TypeScript
fragment: unions on the left must embed memberwise, `never` is assignable
to everything; everything else is handled by `subtyA`. -/
def subty : Ty → Ty → Bool
  | .never, _ => true
  | .union a b, u => subty a u && subty b u
  | t, u => subtyA t u

/-- Assignability of a non-union, non-`never` left-hand side: `unknown`
accepts everything, a union on the right is satisfied by any member,
nothing is assignable to `never`; atoms against atoms are `subtyAA`. -/
def subtyA : Ty → Ty → Bool
  | _, .unknown => true
  | t, .union a b => subtyA t a || subtyA t b
  | _, .never => false
  | t, u => subtyAA t u

/-- Assignability between single (non-union) types: literals are
assignable to their base primitives, `Uint8Array` and
`Uint8Array<ArrayBufferLike>` are mutually assignable, readonly tuples
are assignable covariantly (same length) and to covariant readonly array
types; opaque object types and `ExactKeyMap` types only to themselves. -/
def subtyAA : Ty → Ty → Bool
  | .strLit a, u => match u with | .strLit b => a == b | .str => true | _ => false
  | .str, u => match u with | .str => true | _ => false
  | .numLit a, u => match u with | .numLit b => a == b | .num => true | _ => false
  | .num, u => match u with | .num => true | _ => false
  | .boolLit a, u => match u with | .boolLit b => a == b | .bool => true | _ => false
  | .bool, u => match u with | .bool => true | _ => false
  | .bigint, u => match u with | .bigint => true | _ => false
  | .symbol, u => match u with | .symbol => true | _ => false
  | .u8, u => match u with | .u8 => true | .u8p => true | _ => false
  | .u8p, u => match u with | .u8 => true | .u8p => true | _ => false
  | .other a, u => match u with | .other b => a == b | _ => false
  | .tnil, u => match u with | .tnil => true | .arrOf _ => true | _ => false
  | .tcons a as, u =>
    match u with
    | .tcons b bs => subty a b && subty as bs
    | .arrOf e => subty a e && subty as (.arrOf e)
    | _ => false
  | .arrOf a, u => match u with | .arrOf b => subty a b | _ => false
  | .ekmT a, u => match u with | .ekmT b => a == b | _ => false
  | _, _ => false

end

end Ty

/-- The members a distributive conditional type visits: unions are
flattened, `never` contributes nothing, anything else is a single member. -/
def tyParts : Ty → List Ty
  | .union a b => tyParts a ++ tyParts b
  | .never => []
  | t => [t]

/-- Rebuilding a union from members (the result side of a distributive
conditional); the empty union is `never`. -/
def unionAll : List Ty → Ty
  | [] => .never
  | t :: ts => .union t (unionAll ts)

/-- Semantic inclusion of the modelled types: every union member of `a` is
a union member of `b`. -/
def tySub (a b : Ty) : Prop := ∀ t ∈ tyParts a, t ∈ tyParts b

instance (a b : Ty) : Decidable (tySub a b) :=
  inferInstanceAs (Decidable (∀ t ∈ tyParts a, t ∈ tyParts b))

/-- Two modelled types are the same TypeScript type when they have the
same union members. -/
def tyEquiv (a b : Ty) : Prop := tySub a b ∧ tySub b a

instance (a b : Ty) : Decidable (tyEquiv a b) :=
  inferInstanceAs (Decidable (tySub a b ∧ tySub b a))

/-- `WidenPrimitive` from `src/types/Widen.ts`, on a single union member:
literal primitives go to their base primitive; the trailing
template-literal branch (`` T extends `${string}` ``) is subsumed by the
first `T extends string` branch and therefore leaves no further trace. -/
def widenPrimA (t : Ty) : Ty :=
  if t.subty .str then .str
  else if t.subty .num then .num
  else if t.subty .bool then .bool
  else if t.subty .bigint then .bigint
  else if t.subty .symbol then .symbol
  else t

/-- `NormalizeTypedArrays` from `src/types/Widen.ts`, on a single union
member: `T extends Uint8Array<ArrayBufferLike> ? Uint8Array : T`. -/
def normTypedA (t : Ty) : Ty :=
  if t.subty .u8p then .u8 else t

mutual

/-- `Widen` from `src/types/Widen.ts`:
`NormalizeTypedArrays<WidenPrimitive<WidenArray<T>>>`. Each stage is a
distributive conditional, so the whole chain distributes over union
members. `WidenArray` turns a readonly tuple or array into `Widen<U>[]`
where `U` is the (union of the) element type(s); array results match no
primitive and no typed-array pattern, so the later stages leave them
unchanged and the tuple/array cases produce `arrOf` directly. -/
def widen : Ty → Ty
  | .union a b => .union (widen a) (widen b)
  | .never => .never
  | .tnil => .arrOf .never
  | .tcons a as => .arrOf (.union (widen a) (widenTupElems as))
  | .arrOf t => .arrOf (widen t)
  | t => normTypedA (widenPrimA t)

/-- `Widen` of the union of the remaining elements of a tuple spine (the
inferred `U` of `WidenArray`, widened elementwise; `Widen` distributes
over the inferred union, so widening member by member is the same type).
Only `tnil`-terminated spines arise from TypeScript tuple types, so the
fallback (an ill-formed spine tail) is treated as a primitive leaf. -/
def widenTupElems : Ty → Ty
  | .tnil => .never
  | .tcons a as => .union (widen a) (widenTupElems as)
  | t => normTypedA (widenPrimA t)

end

/-- The `readonly [unknown, unknown]` entry pattern (`Entry` from
`src/types/Entry.ts`). -/
def entryPat : Ty := .tcons .unknown (.tcons .unknown .tnil)

mutual

/-- `NormalizeValue` from `src/types/NormalizeValue.ts`: a value
assignable to `readonly (readonly [unknown, unknown])[]` becomes
`ExactKeyMap` of its entries with every entry value recursively
normalized; anything else is widened. Distributes over union members. -/
def normalizeValue : Ty → Ty
  | .union a b => .union (normalizeValue a) (normalizeValue b)
  | .never => .never
  | .tnil => .ekmT .tnil
  | .tcons e es =>
    if (Ty.tcons e es).subty (.arrOf entryPat) then
      .ekmT (.tcons (normEntry e) (normEntriesTail es))
    else widen (.tcons e es)
  | .arrOf t =>
    if t.subty entryPat then .ekmT (.arrOf (normEntry t)) else widen (.arrOf t)
  | t => widen t

/-- The per-element step of `NormalizeValue`'s mapped type:
`V[I] extends readonly [infer Key, infer Val] ? [Key, NormalizeValue<Val>] : V[I]`
(modelled for plain two-element tuple elements, the only element shape the
library's entry lists produce). -/
def normEntry : Ty → Ty
  | .tcons k (.tcons v .tnil) => .tcons k (.tcons (normalizeValue v) .tnil)
  | e => e

/-- The mapped type applied along the remaining tuple spine. -/
def normEntriesTail : Ty → Ty
  | .tnil => .tnil
  | .tcons e es => .tcons (normEntry e) (normEntriesTail es)
  | t => t

end

/-- A pair of the collection rendered as its TypeScript entry tuple type
`readonly [K, V]`. -/
def entryTy (p : Ty × Ty) : Ty := .tcons p.1 (.tcons p.2 .tnil)

/-- `KeysOfEntries` from `src/types/KeysOfEntries.ts`:
`Entries[number] extends readonly [infer K, any] ? K : never`. The
conditional distributes over the members of `Entries[number]`; every
member contributed by a pair collection is a single two-element tuple
type, which matches the pattern and yields its first component. -/
def keysOfEntries (es : List (Ty × Ty)) : Ty :=
  unionAll ((es.map entryTy).map (fun t =>
    match t with
    | .tcons k (.tcons _ .tnil) => k
    | _ => .never))

/-- `ExtractExactEntry` from `src/types/ExtractExactEntity.ts`:
`Extract<Entries[number], readonly [K, unknown]>`, i.e. the union of the
entry tuples assignable to `readonly [K, unknown]` (those whose key type
is assignable to `K`). -/
def extractExactEntry (es : List (Ty × Ty)) (K : Ty) : Ty :=
  unionAll ((es.map entryTy).filter
    (fun t => t.subty (.tcons K (.tcons .unknown .tnil))))

/-- The catch-all branch of `ValueOfKey` (`src/types/ValueOfKey.ts`):
`Entries[number] extends infer T ? T extends readonly [infer Key, infer Val]
? (K extends Key ? NormalizeValue<Val> : never) : never : never` — the
inner conditionals distribute over the members of `Entries[number]` and
over the members of `K`. -/
def catchAllBranch (es : List (Ty × Ty)) (K : Ty) : Ty :=
  unionAll ((es.map entryTy).map (fun t =>
    match t with
    | .tcons key (.tcons val .tnil) =>
      unionAll ((tyParts K).map
        (fun k => if k.subty key then normalizeValue val else .never))
    | _ => .never))

/-- The exact branch of `ValueOfKey`:
`Exact extends readonly [K, infer V] ? NormalizeValue<V> : never`,
distributing over the members of `Exact`. -/
def exactBranch (exact : Ty) (K : Ty) : Ty :=
  unionAll ((tyParts exact).map (fun t =>
    match t with
    | .tcons a (.tcons b .tnil) =>
      if a.subty K then normalizeValue b else .never
    | _ => .never))

/-- `ValueOfKey` from `src/types/ValueOfKey.ts`: bind
`Exact := ExtractExactEntry<Entries, K>`; if `[Exact] extends [never]`
take the catch-all branch, otherwise the exact branch. -/
def valueOfKey (es : List (Ty × Ty)) (K : Ty) : Ty :=
  let exact := extractExactEntry es K
  if tyParts exact = [] then catchAllBranch es K else exactBranch exact K

/-- A single (non-union, non-`never`) TypeScript type: the kind of type a
distributive conditional treats as one member. -/
def isAtomTy : Ty → Bool
  | .union _ _ => false
  | .never => false
  | _ => true

/-!
## Supporting lemmas about the type fragment
-/

theorem tyParts_unionAll (l : List Ty) :
    tyParts (unionAll l) = l.flatMap tyParts := by
  induction l with
  | nil => rfl
  | cons t ts ih => simp [unionAll, tyParts, ih]

theorem tyEquiv_of_tyParts_eq {a b : Ty} (h : tyParts a = tyParts b) :
    tyEquiv a b := by
  constructor <;> intro t ht <;> [rw [← h]; rw [h]] <;> exact ht

theorem tyEquiv_never_of_tyParts_nil {a : Ty} (h : tyParts a = []) :
    tyEquiv a .never := tyEquiv_of_tyParts_eq (by simp [h, tyParts])

theorem subty_unknown (t : Ty) : t.subty .unknown = true := by
  induction t <;> simp_all [Ty.subty, Ty.subtyA]

theorem subty_union_of_left {t a : Ty} (b : Ty) (h : t.subty a = true) :
    t.subty (.union a b) = true := by
  induction t generalizing a b with
  | never => simp [Ty.subty]
  | union x y ihx ihy =>
    simp only [Ty.subty, Bool.and_eq_true] at h ⊢
    exact ⟨ihx b h.1, ihy b h.2⟩
  | _ => simp_all [Ty.subty, Ty.subtyA]

theorem subty_union_of_right {t b : Ty} (a : Ty) (h : t.subty b = true) :
    t.subty (.union a b) = true := by
  induction t generalizing a b with
  | never => simp [Ty.subty]
  | union x y ihx ihy =>
    simp only [Ty.subty, Bool.and_eq_true] at h ⊢
    exact ⟨ihx a h.1, ihy a h.2⟩
  | _ => simp_all [Ty.subty, Ty.subtyA]

theorem subty_atom_union (t a b : Ty) (h : isAtomTy t = true) :
    t.subty (.union a b) = (t.subty a || t.subty b) := by
  cases t <;> simp_all [Ty.subty, Ty.subtyA, isAtomTy]

theorem subty_refl (t : Ty) : t.subty t = true := by
  induction t with
  | union a b iha ihb =>
    simp only [Ty.subty, Bool.and_eq_true]
    exact ⟨subty_union_of_left b iha, subty_union_of_right a ihb⟩
  | tcons a as iha ihas => simp_all [Ty.subty, Ty.subtyA, Ty.subtyAA]
  | _ => simp_all [Ty.subty, Ty.subtyA, Ty.subtyAA]

theorem subty_entry_pat (p : Ty × Ty) (K : Ty) :
    (entryTy p).subty (.tcons K (.tcons .unknown .tnil)) = p.1.subty K := by
  show (Ty.tcons p.1 (.tcons p.2 .tnil)).subty _ = _
  simp [Ty.subty, Ty.subtyA, Ty.subtyAA, subty_unknown]

theorem tyParts_entryTy (p : Ty × Ty) : tyParts (entryTy p) = [entryTy p] := rfl

theorem flatMap_tyParts_map_entryTy (l : List (Ty × Ty)) :
    (l.map entryTy).flatMap tyParts = l.map entryTy := by
  induction l with
  | nil => rfl
  | cons p ps ih => simp [tyParts_entryTy, ih]

theorem tyParts_extract (es : List (Ty × Ty)) (K : Ty) :
    tyParts (extractExactEntry es K) =
      (es.filter (fun p => p.1.subty K)).map entryTy := by
  unfold extractExactEntry
  rw [tyParts_unionAll, List.filter_map]
  have hc : List.filter ((fun t => t.subty (.tcons K (.tcons .unknown .tnil))) ∘ entryTy) es
      = List.filter (fun p => p.1.subty K) es :=
    List.filter_congr (fun p _ => by simpa using subty_entry_pat p K)
  rw [hc]
  exact flatMap_tyParts_map_entryTy _

theorem filter_flatMap {α β : Type} (l : List α) (q : α → Bool) (f : α → List β) :
    (l.filter q).flatMap f = l.flatMap (fun x => if q x then f x else []) := by
  induction l with
  | nil => rfl
  | cons x xs ih =>
    by_cases h : q x = true
    · simp [List.filter_cons, h, ih]
    · simp only [Bool.not_eq_true] at h
      simp [List.filter_cons, h, ih]

theorem mem_ite_nil {α : Type} {c : Prop} [Decidable c] {l : List α} {t : α} :
    (t ∈ if c then l else []) ↔ c ∧ t ∈ l := by
  split <;> simp_all

theorem tyParts_exactBranch (es : List (Ty × Ty)) (K K' : Ty) :
    tyParts (exactBranch (extractExactEntry es K) K') =
      (es.filter (fun p => p.1.subty K)).flatMap
        (fun p => if p.1.subty K' = true then tyParts (normalizeValue p.2) else []) := by
  unfold exactBranch
  rw [tyParts_extract, tyParts_unionAll, List.flatMap_map, List.flatMap_map]
  apply List.flatMap_congr
  intro p _
  show tyParts (match entryTy p with
    | .tcons a (.tcons b .tnil) => if a.subty K' then normalizeValue b else .never
    | _ => .never) = _
  show tyParts (if p.1.subty K' then normalizeValue p.2 else .never) = _
  rw [apply_ite tyParts]
  simp [tyParts]

theorem tyParts_catchAll (es : List (Ty × Ty)) (K : Ty) :
    tyParts (catchAllBranch es K) =
      es.flatMap (fun p => (tyParts K).flatMap
        (fun k => if k.subty p.1 = true then tyParts (normalizeValue p.2) else [])) := by
  unfold catchAllBranch
  rw [tyParts_unionAll, List.flatMap_map, List.flatMap_map]
  apply List.flatMap_congr
  intro p _
  show tyParts (match entryTy p with
    | .tcons key (.tcons val .tnil) =>
      unionAll ((tyParts K).map (fun k => if k.subty key then normalizeValue val else .never))
    | _ => .never) = _
  show tyParts (unionAll ((tyParts K).map
    (fun k => if k.subty p.1 then normalizeValue p.2 else .never))) = _
  rw [tyParts_unionAll, List.flatMap_map]
  apply List.flatMap_congr
  intro k _
  rw [apply_ite tyParts]
  simp [tyParts]

theorem valueOfKey_eq_catchAll {es : List (Ty × Ty)} {K : Ty}
    (h : tyParts (extractExactEntry es K) = []) :
    valueOfKey es K = catchAllBranch es K := by
  simp [valueOfKey, h]

theorem valueOfKey_eq_exact {es : List (Ty × Ty)} {K : Ty}
    (h : tyParts (extractExactEntry es K) ≠ []) :
    valueOfKey es K = exactBranch (extractExactEntry es K) K := by
  simp [valueOfKey, h]

theorem tyParts_extract_eq_nil_iff (es : List (Ty × Ty)) (K : Ty) :
    tyParts (extractExactEntry es K) = [] ↔ ∀ p ∈ es, p.1.subty K = false := by
  rw [tyParts_extract, List.map_eq_nil_iff, List.filter_eq_nil_iff]
  constructor
  · intro h p hp
    have := h p hp
    simpa using this
  · intro h p hp
    simp [h p hp]

theorem catchAll_union (es : List (Ty × Ty)) (K1 K2 : Ty) :
    tyEquiv (catchAllBranch es (.union K1 K2))
      (.union (catchAllBranch es K1) (catchAllBranch es K2)) := by
  constructor <;> intro t ht <;>
    simp only [tyParts, tyParts_catchAll, List.mem_flatMap, List.mem_append,
      mem_ite_nil] at ht ⊢
  · obtain ⟨p, hp, k, hk, hs, hmem⟩ := ht
    rcases hk with h1 | h2
    · exact Or.inl ⟨p, hp, k, h1, hs, hmem⟩
    · exact Or.inr ⟨p, hp, k, h2, hs, hmem⟩
  · rcases ht with ⟨p, hp, k, hk, hs, hmem⟩ | ⟨p, hp, k, hk, hs, hmem⟩
    · exact ⟨p, hp, k, Or.inl hk, hs, hmem⟩
    · exact ⟨p, hp, k, Or.inr hk, hs, hmem⟩

/-!
## Claims about the type-derivation engine
-/

/-- C3: for every pair collection, `KeysOfEntries` equals the union of the
first components of all pairs (the union deduplicates member sets), and
for a collection with zero pairs it is the bottom type `never`, so no key
is valid. -/
theorem c3_keys_of_entries (es : List (Ty × Ty)) :
    tyEquiv (keysOfEntries es) (unionAll (es.map Prod.fst))
    ∧ keysOfEntries ([] : List (Ty × Ty)) = .never := by
  refine ⟨tyEquiv_of_tyParts_eq ?_, rfl⟩
  unfold keysOfEntries
  rw [tyParts_unionAll, List.flatMap_map, List.flatMap_map,
    tyParts_unionAll, List.flatMap_map]
  rfl

/-- C1: when the collection owns a pair whose key type is exactly `K` and
a catch-all pair whose key type strictly includes `K`, resolving `K` uses
the exact branch only — the result is the union of the normalized values
of the exactly matching pairs (those whose key is assignable to `K`), so
the catch-all pair, whose key is not assignable to `K`, contributes
nothing; the catch-all branch is consulted only when exact-entry
extraction is `never`. -/
theorem c1_exact_over_catch_all (es : List (Ty × Ty)) (K v1 kc vc : Ty)
    (hexact : (K, v1) ∈ es) (hcatch : (kc, vc) ∈ es)
    (hbroad : K.subty kc = true) (hnotexact : kc.subty K = false) :
    valueOfKey es K = exactBranch (extractExactEntry es K) K
    ∧ tyEquiv (valueOfKey es K)
        (unionAll (es.map
          (fun p => if p.1.subty K then normalizeValue p.2 else .never))) := by
  have hne : tyParts (extractExactEntry es K) ≠ [] := by
    rw [tyParts_extract]
    intro h
    rw [List.map_eq_nil_iff] at h
    have hmem : (K, v1) ∈ List.filter (fun p => p.1.subty K) es :=
      List.mem_filter_of_mem hexact (subty_refl K)
    rw [h] at hmem
    exact absurd hmem (List.not_mem_nil _)
  refine ⟨valueOfKey_eq_exact hne, ?_⟩
  rw [valueOfKey_eq_exact hne]
  apply tyEquiv_of_tyParts_eq
  rw [tyParts_exactBranch, tyParts_unionAll, List.flatMap_map, filter_flatMap]
  apply List.flatMap_congr
  intro p _
  by_cases h : p.1.subty K = true <;> simp [h, tyParts]

/-- C1 witness: a collection with the exact pair `('a', 1)` and the
catch-all pair `('a' | 'b', 'z')`; resolving `'a'` yields `number` (the
normalized exact value), not the catch-all's `string`. -/
theorem c1_witness :
    valueOfKey [(.strLit "a", .numLit 1), (.union (.strLit "a") (.strLit "b"), .strLit "z")]
        (.strLit "a")
      = exactBranch
          (extractExactEntry
            [(.strLit "a", .numLit 1), (.union (.strLit "a") (.strLit "b"), .strLit "z")]
            (.strLit "a"))
          (.strLit "a")
    ∧ tyEquiv
        (valueOfKey
          [(.strLit "a", .numLit 1), (.union (.strLit "a") (.strLit "b"), .strLit "z")]
          (.strLit "a"))
        (unionAll
          (List.map
            (fun p : Ty × Ty => if p.1.subty (Ty.strLit "a") then normalizeValue p.2 else Ty.never)
            [(.strLit "a", .numLit 1), (.union (.strLit "a") (.strLit "b"), .strLit "z")])) :=
  c1_exact_over_catch_all _ _ (.numLit 1) (.union (.strLit "a") (.strLit "b")) (.strLit "z")
    (by simp) (by simp)
    (by simp [Ty.subty, Ty.subtyA, Ty.subtyAA])
    (by simp [Ty.subty, Ty.subtyA, Ty.subtyAA])

/-- C4 counterexample: on the collection `[('a', 'x'), ('b' | 'c', 2)]`,
resolving the key union `'a' | 'b'` yields `string` (the exact branch wins
because `'a'` has an exact match), while resolving `'a'` and `'b'`
separately yields `string` and `number`, whose union is `string | number`
— so value resolution does not distribute over key unions. -/
theorem c4_counterexample :
    ¬ tyEquiv
      (valueOfKey
        [(.strLit "a", .strLit "x"), (.union (.strLit "b") (.strLit "c"), .numLit 2)]
        (.union (.strLit "a") (.strLit "b")))
      (.union
        (valueOfKey
          [(.strLit "a", .strLit "x"), (.union (.strLit "b") (.strLit "c"), .numLit 2)]
          (.strLit "a"))
        (valueOfKey
          [(.strLit "a", .strLit "x"), (.union (.strLit "b") (.strLit "c"), .numLit 2)]
          (.strLit "b"))) := by
  simp [valueOfKey, extractExactEntry, entryTy, tyParts, unionAll, Ty.subty, Ty.subtyA,
    Ty.subtyAA, exactBranch, catchAllBranch, normalizeValue, widen, widenPrimA, normTypedA,
    tyEquiv, tySub]

/-- C4 (amended): value resolution distributes over a key union provided
every entry key is a single (non-union, non-`never`) type and the two key
parts either both have an exact match or both have none; and a key
matched by no pair — neither exactly nor via a catch-all supertype key —
resolves to the bottom type. -/
theorem c4_amended :
    (∀ (es : List (Ty × Ty)) (K1 K2 : Ty),
      (∀ p ∈ es, isAtomTy p.1 = true) →
      (tyParts (extractExactEntry es K1) = [] ↔ tyParts (extractExactEntry es K2) = []) →
      tyEquiv (valueOfKey es (.union K1 K2))
        (.union (valueOfKey es K1) (valueOfKey es K2)))
    ∧ (∀ (es : List (Ty × Ty)) (K : Ty),
      (∀ p ∈ es, p.1.subty K = false) →
      (∀ p ∈ es, ∀ k ∈ tyParts K, k.subty p.1 = false) →
      tyEquiv (valueOfKey es K) .never) := by
  constructor
  · intro es K1 K2 hatom hiff
    by_cases h1 : tyParts (extractExactEntry es K1) = []
    · have h2 : tyParts (extractExactEntry es K2) = [] := hiff.mp h1
      rw [tyParts_extract_eq_nil_iff] at h1 h2
      have hc : tyParts (extractExactEntry es (.union K1 K2)) = [] := by
        rw [tyParts_extract_eq_nil_iff]
        intro p hp
        rw [subty_atom_union _ _ _ (hatom p hp), h1 p hp, h2 p hp]
        rfl
      rw [valueOfKey_eq_catchAll hc,
        valueOfKey_eq_catchAll ((tyParts_extract_eq_nil_iff es K1).mpr h1),
        valueOfKey_eq_catchAll ((tyParts_extract_eq_nil_iff es K2).mpr h2)]
      exact catchAll_union es K1 K2
    · have h2 : tyParts (extractExactEntry es K2) ≠ [] := fun h => h1 (hiff.mpr h)
      have hc : tyParts (extractExactEntry es (.union K1 K2)) ≠ [] := by
        intro h
        apply h1
        rw [tyParts_extract_eq_nil_iff] at h ⊢
        intro p hp
        have := h p hp
        rw [subty_atom_union _ _ _ (hatom p hp)] at this
        exact (Bool.or_eq_false_iff.mp this).1
      rw [valueOfKey_eq_exact hc, valueOfKey_eq_exact h1, valueOfKey_eq_exact h2]
      constructor <;> intro t ht <;>
        simp only [tyParts, tyParts_exactBranch, List.mem_append, List.mem_flatMap,
          List.mem_filter, mem_ite_nil] at ht ⊢
      · obtain ⟨p, ⟨hp, hq⟩, _, hmem⟩ := ht
        rw [subty_atom_union _ _ _ (hatom p hp)] at hq
        rcases Bool.or_eq_true_iff.mp hq with hl | hr
        · exact Or.inl ⟨p, ⟨hp, hl⟩, hl, hmem⟩
        · exact Or.inr ⟨p, ⟨hp, hr⟩, hr, hmem⟩
      · rcases ht with ⟨p, ⟨hp, hq⟩, _, hmem⟩ | ⟨p, ⟨hp, hq⟩, _, hmem⟩
        · exact ⟨p, ⟨hp, subty_union_of_left K2 hq⟩, subty_union_of_left K2 hq, hmem⟩
        · exact ⟨p, ⟨hp, subty_union_of_right K1 hq⟩, subty_union_of_right K1 hq, hmem⟩
  · intro es K h1 h2
    have hex : tyParts (extractExactEntry es K) = [] :=
      (tyParts_extract_eq_nil_iff es K).mpr h1
    rw [valueOfKey_eq_catchAll hex]
    apply tyEquiv_never_of_tyParts_nil
    rw [tyParts_catchAll]
    rw [List.flatMap_eq_nil_iff]
    intro p hp
    rw [List.flatMap_eq_nil_iff]
    intro k hk
    simp [h2 p hp k hk]

/-- C4 witness for the amended claim: distribution holds on
`[('a', 1), ('b', 2)]` for the union `'a' | 'b'` (both parts have exact
matches), and the key `'x'`, matched by no pair of `[('a', 1)]`, resolves
to `never`. -/
theorem c4_witness :
    tyEquiv
      (valueOfKey [(.strLit "a", .numLit 1), (.strLit "b", .numLit 2)]
        (.union (.strLit "a") (.strLit "b")))
      (.union (valueOfKey [(.strLit "a", .numLit 1), (.strLit "b", .numLit 2)] (.strLit "a"))
        (valueOfKey [(.strLit "a", .numLit 1), (.strLit "b", .numLit 2)] (.strLit "b")))
    ∧ tyEquiv (valueOfKey [(.strLit "a", .numLit 1)] (.strLit "x")) .never :=
  ⟨c4_amended.1 [(.strLit "a", .numLit 1), (.strLit "b", .numLit 2)] (.strLit "a") (.strLit "b")
      (by intro p hp; fin_cases hp <;> rfl)
      (by simp [tyParts_extract, List.filter, entryTy, Ty.subty, Ty.subtyA, Ty.subtyAA, tyParts]),
   c4_amended.2 [(.strLit "a", .numLit 1)] (.strLit "x")
      (by intro p hp; fin_cases hp <;> simp [Ty.subty, Ty.subtyA, Ty.subtyAA])
      (by intro p hp k hk; fin_cases hp <;> simp_all [tyParts, Ty.subty, Ty.subtyA, Ty.subtyAA])⟩

/-- C5: under the widen-on-normalize policy, normalizing a value that is
not a nested pair collection widens literal primitives to their base
primitives, normalizes `Uint8Array<ArrayBufferLike>` to the
unparameterized `Uint8Array`, and passes opaque non-primitive object
types (dates, functions, plain structured objects) through unchanged. -/
theorem c5_widen_policy (s : String) (n : Int) (b : Bool) (name : String) :
    normalizeValue (.strLit s) = .str
    ∧ normalizeValue (.numLit n) = .num
    ∧ normalizeValue (.boolLit b) = .bool
    ∧ normalizeValue .u8p = .u8
    ∧ normalizeValue (.other name) = .other name := by
  refine ⟨?_, ?_, ?_, ?_, ?_⟩ <;>
    simp [normalizeValue, widen, widenPrimA, normTypedA, Ty.subty, Ty.subtyA, Ty.subtyAA]

/-!
## Supporting lemmas about the runtime container
-/

theorem mapHas_append (s t : JStore) (k : JVal) :
    mapHas (s ++ t) k = (mapHas s k || mapHas t k) := by
  induction s with
  | nil => simp [mapHas]
  | cons p rest ih => by_cases h : p.1 = k <;> simp [mapHas, h, ih]

theorem mapSet_fresh {s : JStore} {k : JVal} (v : JVal) (h : mapHas s k = false) :
    mapSet s k v = s ++ [(k, v)] := by
  simp [mapSet, h]

theorem mapSetAll_cons (s : JStore) (q : JVal × JVal) (l : JStore) :
    mapSetAll s (q :: l) = mapSetAll (mapSet s q.1 q.2) l := rfl

theorem mapSetAll_fresh :
    ∀ (l : JStore) (s : JStore), (∀ p ∈ l, mapHas s p.1 = false) →
      (l.map Prod.fst).Nodup → mapSetAll s l = s ++ l := by
  intro l
  induction l with
  | nil => intro s _ _; simp [mapSetAll]
  | cons q l ih =>
    intro s hfresh hnd
    have h0 : mapHas s q.1 = false := hfresh q (List.mem_cons_self q l)
    rw [mapSetAll_cons, mapSet_fresh q.2 h0]
    rw [List.map_cons, List.nodup_cons] at hnd
    rw [ih (s ++ [(q.1, q.2)]) ?fresh hnd.2]
    · simp
    case fresh =>
      intro p hp
      rw [mapHas_append]
      have h1 : mapHas s p.1 = false := hfresh p (List.mem_cons_of_mem q hp)
      have h2 : q.1 ≠ p.1 := by
        intro he
        exact hnd.1 (he ▸ List.mem_map_of_mem Prod.fst hp)
      simp [mapHas, h1, h2]

theorem mapGet_map_of_mem (f : JVal → JVal) :
    ∀ (es : JStore) (k v : JVal), (es.map Prod.fst).Nodup → (k, v) ∈ es →
      mapGet (es.map (fun p => (p.1, f p.2))) k = some (f v) := by
  intro es
  induction es with
  | nil => intro k v _ hm; cases hm
  | cons q l ih =>
    intro k v hnd hm
    rw [List.map_cons, List.nodup_cons] at hnd
    rw [List.map_cons, mapGet]
    by_cases h : q.1 = k
    · rcases List.mem_cons.mp hm with heq | hl
      · rw [← heq] at h ⊢
        simp
      · exact absurd (h ▸ List.mem_map_of_mem Prod.fst hl) hnd.1
    · have hl : (k, v) ∈ l := by
        rcases List.mem_cons.mp hm with heq | hl
        · exact absurd (by rw [← heq]) h
        · exact hl
      simp only [h, if_false]
      exact ih k v hnd.2 hl

theorem processEntries_raw (es : JStore) :
    processEntries (es.map (fun p => .arr [p.1, p.2])) =
      es.map (fun p => (p.1, processVal p.2)) := by
  induction es with
  | nil => rfl
  | cons q l ih => simp [processEntries, ih]

theorem toEntriesArray_raw (es : JStore) :
    toEntriesArray (rawEntries es) [] = es.map (fun p => .arr [p.1, p.2]) := by
  cases es with
  | nil => rfl
  | cons q l => simp [rawEntries, toEntriesArray, isEntriesArray, jElems]

theorem toEntriesArray_tuples {l : List JVal} (h : l.all JVal.isTuple = true) :
    toEntriesArray (.arr l) [] = l := by
  cases l with
  | nil => rfl
  | cons x xs =>
    rw [List.all_cons, Bool.and_eq_true] at h
    cases x <;> simp_all [JVal.isTuple, toEntriesArray, isEntriesArray, jElems]

theorem processVal_eq (v : JVal) :
    processVal v = (if JVal.isArrayOfTuples v then .ekm (ekmConstruct v []) else v) := by
  cases v with
  | arr l =>
    by_cases h : l.all JVal.isTuple = true
    · simp [processVal, h, JVal.isArrayOfTuples, ekmConstruct, toEntriesArray_tuples h]
    · rw [Bool.not_eq_true] at h
      simp [processVal, h, JVal.isArrayOfTuples]
  | _ => simp [processVal, JVal.isArrayOfTuples]

theorem ekmConstruct_store (es : JStore) (hnd : (es.map Prod.fst).Nodup) :
    ekmConstruct (rawEntries es) [] = es.map (fun p => (p.1, processVal p.2)) := by
  rw [ekmConstruct, toEntriesArray_raw, processEntries_raw]
  rw [mapSetAll_fresh _ [] (fun p _ => rfl) (by simpa [List.map_map, Function.comp] using hnd)]
  simp

theorem mapHas_remove (s : JStore) (k : JVal) : mapHas (mapRemove s k) k = false := by
  induction s with
  | nil => rfl
  | cons p rest ih => by_cases h : p.1 = k <;> simp [mapRemove, mapHas, h, ih]

theorem asMapGo_eq :
    ∀ (l : JStore) (acc : JStore),
      asMapGo acc l = mapSetAll acc (l.map (fun p => (p.1, exportVal p.2))) := by
  intro l
  induction l with
  | nil => intro acc; rfl
  | cons q rest ih =>
    intro acc
    rw [show asMapGo acc (q :: rest) = asMapGo (mapSet acc q.1 (exportVal q.2)) rest by
      rw [← Prod.mk.eta (p := q)]; rfl]
    rw [List.map_cons, mapSetAll_cons]
    exact ih _

/-- Whether a runtime value is a typed container (an object exposing the
`asMap` export capability). -/
def isEkmVal : JVal → Bool
  | .ekm _ => true
  | _ => false

theorem exportVal_not_ekm (v : JVal) : isEkmVal (exportVal v) = false := by
  cases v <;> simp [exportVal, isEkmVal]

theorem exportVal_leaf (v : JVal) (h : isEkmVal v = false) : exportVal v = v := by
  cases v <;> simp_all [exportVal, isEkmVal]

/-!
## Claims about the runtime container
-/

/-- C2: constructing an `ExactKeyMap` from entries with pairwise distinct
keys and calling `get(ki)` returns `vi` unchanged when `vi` is not
recognised by `isArrayOfTuples`, and otherwise returns the nested
`ExactKeyMap` built from `vi` by the same constructor — which therefore
satisfies this same round-trip property recursively. -/
theorem c2_round_trip (es : JStore) (hnd : (es.map Prod.fst).Nodup)
    (k v : JVal) (hm : (k, v) ∈ es) :
    ekmGet (ekmConstruct (rawEntries es) []) k =
      some (if JVal.isArrayOfTuples v then .ekm (ekmConstruct v []) else v) := by
  rw [ekmGet, ekmConstruct_store es hnd,
    mapGet_map_of_mem processVal es k v hnd hm, processVal_eq]

/-- C2 witness: entries `[('a', 1), ('c', [['d', 2]])]`; `get('a')`
returns `1` unchanged and `get('c')` returns the nested map built from
`[['d', 2]]`. -/
theorem c2_witness :
    ekmGet (ekmConstruct (rawEntries
        [(.str "a", .num 1), (.str "c", .arr [.arr [.str "d", .num 2]])]) []) (.str "c")
      = some (if JVal.isArrayOfTuples (.arr [.arr [.str "d", .num 2]])
          then .ekm (ekmConstruct (.arr [.arr [.str "d", .num 2]]) [])
          else .arr [.arr [.str "d", .num 2]])
    ∧ ekmGet (ekmConstruct (rawEntries
        [(.str "a", .num 1), (.str "c", .arr [.arr [.str "d", .num 2]])]) []) (.str "a")
      = some (if JVal.isArrayOfTuples (.num 1)
          then .ekm (ekmConstruct (.num 1) []) else .num 1) :=
  ⟨c2_round_trip _ (by simp) _ _ (by simp), c2_round_trip _ (by simp) _ _ (by simp)⟩

/-- C6: once a `ConstExactKeyMap` is fully constructed (its transient
`_constructing` flag is back to `false`), `set` throws exactly
"ConstExactKeyMap is read-only, set operation is not allowed" and `delete`
throws exactly "ConstExactKeyMap is read-only, delete operation is not
allowed" — in both cases the throw happens before any mutation, so the
stored entries are untouched — while construction itself performs only
non-throwing `Map` inserts (it is a total function in this model, every
throw site of the class being modelled by an `Except.error`) and ends
with the flag cleared. -/
theorem c6_read_only (m : ConstEKM) (hm : m.constructing = false)
    (k v first : JVal) (rest : List JVal) :
    cekmSet m k v = .error "ConstExactKeyMap is read-only, set operation is not allowed"
    ∧ cekmDelete m k = .error "ConstExactKeyMap is read-only, delete operation is not allowed"
    ∧ (cekmConstruct first rest).constructing = false := by
  refine ⟨?_, ?_, rfl⟩ <;> simp [cekmSet, cekmDelete, hm]

/-- C6 witness: the constructed map `ConstExactKeyMap([['a', 1]])` rejects
`set` and `delete` with the exact messages. -/
theorem c6_witness :
    cekmSet (cekmConstruct (rawEntries [(.str "a", .num 1)]) []) (.str "a") (.num 2)
      = .error "ConstExactKeyMap is read-only, set operation is not allowed"
    ∧ cekmDelete (cekmConstruct (rawEntries [(.str "a", .num 1)]) []) (.str "a")
      = .error "ConstExactKeyMap is read-only, delete operation is not allowed"
    ∧ (cekmConstruct (rawEntries [(.str "a", .num 1)]) []).constructing = false :=
  c6_read_only _ rfl _ _ _ _

/-- C7: `asMap` returns a plain `Map` holding the container's entries in
insertion order, where a stored value exposing the export capability is
recursively replaced by its own export, every other leaf value is
unchanged, and no value of the export is a typed container. -/
theorem c7_as_map (s : JStore) (hnd : (s.map Prod.fst).Nodup) :
    ekmAsMap s = s.map (fun p => (p.1, exportVal p.2))
    ∧ (∀ t : JStore, exportVal (.ekm t) = .pmap (ekmAsMap t))
    ∧ (∀ v : JVal, isEkmVal v = false → exportVal v = v)
    ∧ (∀ p ∈ ekmAsMap s, isEkmVal p.2 = false) := by
  have h1 : ekmAsMap s = s.map (fun p => (p.1, exportVal p.2)) := by
    rw [ekmAsMap, asMapGo_eq,
      mapSetAll_fresh _ [] (fun p _ => rfl) (by simpa [List.map_map, Function.comp] using hnd)]
    simp
  refine ⟨h1, fun t => by simp [exportVal, ekmAsMap], exportVal_leaf, ?_⟩
  intro p hp
  rw [h1] at hp
  obtain ⟨q, _, rfl⟩ := List.mem_map.mp hp
  exact exportVal_not_ekm q.2

/-- C7 witness: exporting `[('a', 1), ('b', ekm [('c', 2)])]` yields the
plain map with the nested container exported to a plain map. -/
theorem c7_witness :
    ekmAsMap [(.str "a", .num 1), (.str "b", .ekm [(.str "c", .num 2)])]
      = List.map (fun p => (p.1, exportVal p.2))
          [(.str "a", .num 1), (.str "b", .ekm [(.str "c", .num 2)])]
    ∧ (∀ t : JStore, exportVal (.ekm t) = .pmap (ekmAsMap t))
    ∧ (∀ v : JVal, isEkmVal v = false → exportVal v = v)
    ∧ (∀ p ∈ ekmAsMap [(.str "a", .num 1), (.str "b", .ekm [(.str "c", .num 2)])],
        isEkmVal p.2 = false) :=
  c7_as_map _ (by simp)

/-- C8: deleting an absent key returns `false` and leaves the store (hence
its size and contents) unchanged; deleting a present key returns `true`,
and an immediately following second delete of the same key returns
`false`. -/
theorem c8_delete (s : JStore) (k : JVal) :
    (mapHas s k = false → ekmDelete s k = (false, s))
    ∧ (mapHas s k = true →
        (ekmDelete s k).1 = true ∧ (ekmDelete (ekmDelete s k).2 k).1 = false) := by
  constructor
  · intro h
    simp [ekmDelete, mapDelete, h]
  · intro h
    refine ⟨by simp [ekmDelete, mapDelete, h], ?_⟩
    simp [ekmDelete, mapDelete, h, mapHas_remove]

/-- C8 witness: on the store `[('a', 1)]`, deleting `'b'` returns `false`
without change, deleting `'a'` returns `true` and a second delete of
`'a'` returns `false`. -/
theorem c8_witness :
    ekmDelete [((JVal.str "a"), JVal.num 1)] (.str "b") = (false, [((JVal.str "a"), JVal.num 1)])
    ∧ (ekmDelete [((JVal.str "a"), JVal.num 1)] (.str "a")).1 = true
    ∧ (ekmDelete (ekmDelete [((JVal.str "a"), JVal.num 1)] (.str "a")).2 (.str "a")).1 = false :=
  ⟨(c8_delete _ _).1 (by simp [mapHas]),
   ((c8_delete _ _).2 (by simp [mapHas])).1,
   ((c8_delete _ _).2 (by simp [mapHas])).2⟩

/-- C9: the array-of-tuples predicate is vacuously true on the empty
array, so constructing an `ExactKeyMap` or a `ConstExactKeyMap` with an
entry whose value is `[]` stores an empty nested map for that key, not
the raw empty array. -/
theorem c9_empty_array_nests (k : JVal) :
    JVal.isArrayOfTuples (.arr []) = true
    ∧ ekmConstruct (rawEntries [(k, .arr [])]) [] = [(k, .ekm [])]
    ∧ (cekmConstruct (rawEntries [(k, .arr [])]) []).store = [(k, .ekm [])] := by
  refine ⟨rfl, ?_, ?_⟩ <;>
    simp [ekmConstruct, cekmConstruct, rawEntries, toEntriesArray, isEntriesArray, jElems,
      processEntries, processVal, mapSetAll, mapSet, mapHas]

/-- C10: `toEntriesArray` treats its arguments as one pair collection iff
the first argument is an array that is empty or whose first element is an
array — later elements are never inspected — so a variadic call whose
first pair has an array-valued key is read as a single pair collection
(that first pair itself) and the remaining variadic pairs are discarded,
while a first pair with a primitive key keeps the variadic reading. -/
theorem c10_to_entries_array :
    (∀ (x : JVal) (xs ys : List JVal),
      isEntriesArray (.arr (x :: xs)) = isEntriesArray (.arr (x :: ys)))
    ∧ (∀ (ks : List JVal) (v : JVal) (rest : List JVal),
      toEntriesArray (.arr [.arr ks, v]) rest = [.arr ks, v])
    ∧ (∀ (s : String) (v : JVal) (rest : List JVal),
      toEntriesArray (.arr [.str s, v]) rest = .arr [.str s, v] :: rest)
    ∧ (∀ rest : List JVal, toEntriesArray (.arr []) rest = []) := by
  refine ⟨?_, ?_, ?_, ?_⟩
  · intro x xs ys; cases x <;> rfl
  · intros; rfl
  · intros; rfl
  · intro _; rfl

end ExactKeyMapSpec
